import Mathlib

/-!
Verification of the graph-reduction and rendering logic of
`gplugins/klayout/plot_nets.py`.

The module builds an undirected simple graph from a netlist (delegated to an
external collaborator), optionally reduces it by repeatedly removing degree-2
nodes whose label contains one of the `nodes_to_reduce` substrings (rewiring
their neighbors), and renders the result either statically or as an
interactive HTML file.

The graph is embedded as a list of node labels (in networkx insertion order)
together with a list of undirected edges, each stored once.  The reduction
loop is embedded with explicit fuel equal to the initial node count, which is
proved sufficient.  The rendering phase is embedded as a pure function of a
flag recording whether the optional `pyvis` dependency is importable,
returning `Except` to model the raised `UserWarning`.
-/

/-- Substring test on character lists: `infix_chars sub s` is `true` iff `sub`
occurs contiguously in `s`; this is Python's `sub in s` for strings. -/
def infix_chars : List Char → List Char → Bool
  | sub, [] => sub.isEmpty
  | sub, c :: rest => sub.isPrefixOf (c :: rest) || infix_chars sub rest

/-- Python `e in node` for strings `e` and `node`. -/
def str_in (e node : String) : Bool :=
  infix_chars e.data node.data

/-- An undirected simple graph in the style of `networkx.Graph`: nodes are
string labels kept in insertion order; each undirected edge is stored once as
an ordered pair. -/
structure Graph where
  nodes : List String
  edges : List (String × String)
deriving Repr, DecidableEq

/-- Two stored edges denote the same undirected edge. -/
def sameEdge (e f : String × String) : Bool :=
  (e.1 == f.1 && e.2 == f.2) || (e.1 == f.2 && e.2 == f.1)

/-- `G.has_edge u v` in networkx: some stored edge joins `u` and `v`. -/
def Graph.hasEdge (G : Graph) (u v : String) : Bool :=
  G.edges.any (fun e => sameEdge e (u, v))

/-- Number of stored edges joining `u` and `v` (at most 1 in a well-formed
simple graph). -/
def Graph.edgeCount (G : Graph) (u v : String) : Nat :=
  (G.edges.filter (fun e => sameEdge e (u, v))).length

/-- `G.add_node u`: appends `u` to the node list if absent (networkx keeps
insertion order and ignores re-insertion). -/
def Graph.addNode (G : Graph) (u : String) : Graph :=
  if u ∈ G.nodes then G else ⟨G.nodes ++ [u], G.edges⟩

/-- `G.add_edge u v` of networkx: inserts the endpoints as nodes when missing
and stores the undirected edge unless it is already present (a simple graph
holds no parallel edges). -/
def Graph.addEdge (G : Graph) (u v : String) : Graph :=
  let G1 := (G.addNode u).addNode v
  if G1.hasEdge u v then G1 else ⟨G1.nodes, G1.edges ++ [(u, v)]⟩

/-- `G.remove_node n` of networkx: deletes `n` and every edge incident to it. -/
def Graph.removeNode (G : Graph) (n : String) : Graph :=
  ⟨G.nodes.erase n, G.edges.filter (fun e => !(e.1 == n) && !(e.2 == n))⟩

/-- The neighbors of `n`: the nodes adjacent to `n`, in node-list order; with
a self-loop, `n` appears once, as in `[e[1] for e in G.edges(node)]` (the
order of this list is immaterial to the reduction, which only forms the set
of unordered neighbor pairs from it). -/
def Graph.neighbors (G : Graph) (n : String) : List String :=
  G.nodes.filter (fun m => G.hasEdge n m)

/-- networkx degree: number of adjacent nodes, a self-loop counting twice. -/
def Graph.degree (G : Graph) (n : String) : Nat :=
  (G.neighbors n).length + (if G.hasEdge n n then 1 else 0)

/-- Well-formedness maintained by the networkx operations: node labels are
distinct, edge endpoints are nodes, and no undirected edge is stored twice. -/
def Graph.WF (G : Graph) : Prop :=
  G.nodes.Nodup ∧
  (∀ e ∈ G.edges, e.1 ∈ G.nodes ∧ e.2 ∈ G.nodes) ∧
  List.Pairwise (fun e f => sameEdge e f = false) G.edges

instance (G : Graph) : Decidable G.WF := by
  unfold Graph.WF
  infer_instance

/-- `_removal_condition(node, degree)` from the source: degree exactly 2 and
the label contains one of the `nodes_to_reduce` substrings. -/
def removal_condition (nodes_to_reduce : List String) (node : String)
    (degree : Nat) : Bool :=
  degree == 2 && nodes_to_reduce.any (fun e => str_in e node)

/-- `itertools.combinations(l, 2)`: all pairs of elements of `l` in order. -/
def combinations2 : List String → List (String × String)
  | [] => []
  | x :: xs => xs.map (fun y => (x, y)) ++ combinations2 xs

/-- One iteration of the `while` loop: scan the nodes in order for the first
one satisfying `_removal_condition`; on a copy of the graph, connect every
pair of its neighbors and then delete it.  `none` when the `while` condition
fails (no node matches). -/
def reduceStep (nodes_to_reduce : List String) (G : Graph) : Option Graph :=
  match G.nodes.find? (fun n => removal_condition nodes_to_reduce n (G.degree n)) with
  | none => none
  | some node =>
      let connected_to_node := G.neighbors node
      let node_pairs_to_connect := combinations2 connected_to_node
      let tmp := node_pairs_to_connect.foldl (fun g p => g.addEdge p.1 p.2) G
      some (tmp.removeNode node)

/-- The `while` loop with explicit fuel: stops when no node matches. -/
def reduceLoop (nodes_to_reduce : List String) : Nat → Graph → Graph
  | 0, G => G
  | fuel + 1, G =>
      match reduceStep nodes_to_reduce G with
      | none => G
      | some G' => reduceLoop nodes_to_reduce fuel G'

/-- The whole reduction phase; fuel equal to the node count is proved
sufficient (`reduceLoop_fixpoint`). -/
def reduce (nodes_to_reduce : List String) (G : Graph) : Graph :=
  reduceLoop nodes_to_reduce G.nodes.length G

/-- The graph handed to the renderer: `if nodes_to_reduce:` skips the whole
reduction phase when the argument is `None` or an empty collection (both
falsy in Python). -/
def graph_for_rendering (G_connectivity : Graph)
    (nodes_to_reduce : Option (List String)) : Graph :=
  match nodes_to_reduce with
  | none => G_connectivity
  | some subs => if subs.isEmpty then G_connectivity else reduce subs G_connectivity

/-- Errors raised by the rendering phase itself. -/
structure DependencyError where
  error_class : String
  message : String
  chained_from_import_error : Bool
deriving Repr, DecidableEq

/-- What the rendering phase produces. -/
inductive RenderOutcome where
  | static_plot (graph : Graph)
  | html_file (filename : String) (select_menu filter_menu : Bool) (graph : Graph)
deriving Repr, DecidableEq

/-- The `UserWarning` raised when `pyvis` cannot be imported, chained (`from e`)
from the underlying `ModuleNotFoundError`. -/
def pyvis_missing_warning : DependencyError :=
  ⟨"UserWarning", "You need to `pip install pyvis<=0.3.1` or `gplugins[klayout]`", true⟩

/-- The rendering phase of `plot_nets`: interactive mode needs `pyvis`
(availability passed explicitly) and writes `connectivity.html` with
`select_menu=True, filter_menu=True`; otherwise a static plot is shown. -/
def render (interactive : Bool) (pyvis_available : Bool) (G_connectivity : Graph) :
    Except DependencyError RenderOutcome :=
  if interactive then
    if pyvis_available then
      Except.ok (RenderOutcome.html_file "connectivity.html" true true G_connectivity)
    else
      Except.error pyvis_missing_warning
  else
    Except.ok (RenderOutcome.static_plot G_connectivity)

/-- `plot_nets` after the graph builder: the builder's output graph is a
parameter (the builder is an external collaborator); the reduction phase and
the renderer follow the source.  The remaining flags of `plot_nets`
(`fully_connected`, `include_labels`, `only_most_complex`) are consumed by the
builder only and so act through `G_from_builder`. -/
def plot_nets (G_from_builder : Graph) (interactive : Bool)
    (nodes_to_reduce : Option (List String)) (pyvis_available : Bool) :
    Except DependencyError RenderOutcome :=
  render interactive pyvis_available (graph_for_rendering G_from_builder nodes_to_reduce)

/-! ### Concrete example graphs used by counterexamples and witnesses -/

/-- The chain `A – waveguideX – waveguideY – B` of the end-to-end scenario. -/
def chainG : Graph :=
  ⟨["A", "waveguideX", "waveguideY", "B"],
   [("A", "waveguideX"), ("waveguideX", "waveguideY"), ("waveguideY", "B")]⟩

/-- A triangle `wgM – wgN – A` in which both `wgM` and `wgN` match `"wg"` and
have degree 2; removing `wgM` first drops `wgN` to degree 1, so `wgN` is never
removed. -/
def triG : Graph :=
  ⟨["wgM", "wgN", "A"], [("wgN", "A"), ("wgN", "wgM"), ("wgM", "A")]⟩

/-- The chain `A – wgX – B`: one matching degree-2 node. -/
def chain3 : Graph :=
  ⟨["A", "wgX", "B"], [("A", "wgX"), ("wgX", "B")]⟩

/-- The result of one reduction step on `chain3`. -/
def reduced3 : Graph :=
  ⟨["A", "B"], [("A", "B")]⟩

/-- A graph with a self-loop on the non-matching node `L` next to a matching
chain `A – wgX – B`. -/
def loopG : Graph :=
  ⟨["L", "wgX", "A", "B"], [("L", "L"), ("A", "wgX"), ("wgX", "B")]⟩

/-- The result of one reduction step on `loopG`. -/
def loopG' : Graph :=
  ⟨["L", "A", "B"], [("L", "L"), ("A", "B")]⟩

/-! ### Basic lemmas about the graph operations -/

lemma sameEdge_iff {e f : String × String} :
    sameEdge e f = true ↔ (e.1 = f.1 ∧ e.2 = f.2) ∨ (e.1 = f.2 ∧ e.2 = f.1) := by
  simp [sameEdge]

lemma sameEdge_trans {e f : String × String} {u v : String}
    (h1 : sameEdge e (u, v) = true) (h2 : sameEdge f (u, v) = true) :
    sameEdge e f = true := by
  rcases sameEdge_iff.mp h1 with ⟨h, h'⟩ | ⟨h, h'⟩ <;>
    rcases sameEdge_iff.mp h2 with ⟨g, g'⟩ | ⟨g, g'⟩ <;>
      exact sameEdge_iff.mpr (by simp_all)

lemma hasEdge_iff {G : Graph} {u v : String} :
    G.hasEdge u v = true ↔ ∃ e ∈ G.edges, sameEdge e (u, v) = true := by
  simp [Graph.hasEdge]

lemma mem_addNode_nodes {G : Graph} {m u : String} (h : m ∈ G.nodes) :
    m ∈ (G.addNode u).nodes := by
  unfold Graph.addNode
  split <;> simp [h]

lemma self_mem_addNode_nodes (G : Graph) (u : String) : u ∈ (G.addNode u).nodes := by
  unfold Graph.addNode
  split <;> simp_all

lemma addNode_edges (G : Graph) (u : String) : (G.addNode u).edges = G.edges := by
  unfold Graph.addNode
  split <;> rfl

lemma addNode_of_mem {G : Graph} {u : String} (h : u ∈ G.nodes) : G.addNode u = G := by
  simp [Graph.addNode, h]

lemma hasEdge_addNode (G : Graph) (w x y : String) :
    (G.addNode w).hasEdge x y = G.hasEdge x y := by
  simp [Graph.hasEdge, addNode_edges]

lemma addEdge_nodes_of_mem {G : Graph} {u v : String}
    (hu : u ∈ G.nodes) (hv : v ∈ G.nodes) : (G.addEdge u v).nodes = G.nodes := by
  simp only [Graph.addEdge, addNode_of_mem hu, addNode_of_mem hv]
  split <;> rfl

lemma hasEdge_addEdge_self (G : Graph) (u v : String) :
    (G.addEdge u v).hasEdge u v = true := by
  simp only [Graph.addEdge]
  by_cases h : ((G.addNode u).addNode v).hasEdge u v = true
  · rw [if_pos h]
    exact h
  · rw [if_neg h]
    simp only [Graph.hasEdge, List.any_append, Bool.or_eq_true, List.any_cons,
      List.any_nil]
    right; left
    simp [sameEdge]

lemma hasEdge_addEdge_of {G : Graph} {u v x y : String}
    (h : G.hasEdge x y = true) : (G.addEdge u v).hasEdge x y = true := by
  simp only [Graph.addEdge]
  have h1 : ((G.addNode u).addNode v).hasEdge x y = true := by
    simpa [hasEdge_addNode] using h
  by_cases hc : ((G.addNode u).addNode v).hasEdge u v = true
  · simpa [hc] using h1
  · rw [if_neg hc]
    simp only [Graph.hasEdge, List.any_append, Bool.or_eq_true]
    left
    simpa [Graph.hasEdge] using h1

lemma hasEdge_addEdge_elim {G : Graph} {u v x y : String}
    (h : (G.addEdge u v).hasEdge x y = true) :
    G.hasEdge x y = true ∨ sameEdge (u, v) (x, y) = true := by
  simp only [Graph.addEdge] at h
  by_cases hc : ((G.addNode u).addNode v).hasEdge u v = true
  · rw [if_pos hc] at h
    left; simpa [hasEdge_addNode] using h
  · rw [if_neg hc] at h
    simp only [Graph.hasEdge, List.any_append, Bool.or_eq_true, List.any_cons,
      List.any_nil] at h
    rcases h with h | h
    · left
      have : ((G.addNode u).addNode v).hasEdge x y = true := by
        simpa [Graph.hasEdge] using h
      simpa [hasEdge_addNode] using this
    · right
      simpa using h

lemma removeNode_nodes (G : Graph) (n : String) :
    (G.removeNode n).nodes = G.nodes.erase n := rfl

lemma hasEdge_removeNode_elim {G : Graph} {n x y : String}
    (h : (G.removeNode n).hasEdge x y = true) :
    G.hasEdge x y = true ∧ x ≠ n ∧ y ≠ n := by
  rcases hasEdge_iff.mp h with ⟨e, he, hs⟩
  simp only [Graph.removeNode, List.mem_filter, Bool.and_eq_true, Bool.not_eq_true',
    beq_eq_false_iff_ne] at he
  obtain ⟨hmem, h1, h2⟩ := he
  refine ⟨hasEdge_iff.mpr ⟨e, hmem, hs⟩, ?_, ?_⟩ <;>
    rcases sameEdge_iff.mp hs with ⟨g, g'⟩ | ⟨g, g'⟩ <;> simp_all

lemma hasEdge_removeNode_of {G : Graph} {n x y : String}
    (hx : x ≠ n) (hy : y ≠ n) (h : G.hasEdge x y = true) :
    (G.removeNode n).hasEdge x y = true := by
  rcases hasEdge_iff.mp h with ⟨e, he, hs⟩
  refine hasEdge_iff.mpr ⟨e, ?_, hs⟩
  simp only [Graph.removeNode, List.mem_filter, Bool.and_eq_true, Bool.not_eq_true',
    beq_eq_false_iff_ne]
  refine ⟨he, ?_, ?_⟩ <;>
    rcases sameEdge_iff.mp hs with ⟨g, g'⟩ | ⟨g, g'⟩ <;> simp_all

lemma mem_neighbors {G : Graph} {n m : String} :
    m ∈ G.neighbors n ↔ m ∈ G.nodes ∧ G.hasEdge n m = true := by
  simp [Graph.neighbors, List.mem_filter]

lemma neighbors_nodup {G : Graph} (h : G.nodes.Nodup) (n : String) :
    (G.neighbors n).Nodup :=
  h.filter _

/-! ### Degree-2 case analysis -/

lemma degree_two_cases {G : Graph} {n : String} (hnd : G.nodes.Nodup)
    (hmem : n ∈ G.nodes) (hdeg : G.degree n = 2) :
    (G.hasEdge n n = true ∧ G.neighbors n = [n]) ∨
    (∃ a b, G.neighbors n = [a, b] ∧ a ≠ b ∧ n ≠ a ∧ n ≠ b ∧
      G.hasEdge n n = false) := by
  unfold Graph.degree at hdeg
  by_cases hs : G.hasEdge n n = true
  · left
    refine ⟨hs, ?_⟩
    rw [hs, if_pos rfl] at hdeg
    have hlen : (G.neighbors n).length = 1 := by omega
    have hn : n ∈ G.neighbors n := mem_neighbors.mpr ⟨hmem, hs⟩
    match hnb : G.neighbors n, hlen' : (G.neighbors n).length, hlen with
    | [x], _, _ =>
      rw [hnb] at hn
      simp only [List.mem_singleton] at hn
      rw [hn]
    | [], h1, h2 => simp [hnb] at hlen
    | x :: y :: rest, _, _ => simp [hnb] at hlen
  · right
    rw [Bool.not_eq_true] at hs
    rw [hs] at hdeg
    simp only [Bool.false_eq_true, if_false, Nat.add_zero] at hdeg
    match hnb : G.neighbors n with
    | [] => simp [hnb] at hdeg
    | [x] => simp [hnb] at hdeg
    | x :: y :: z :: rest => simp [hnb] at hdeg
    | [a, b] =>
      have hnodup : (G.neighbors n).Nodup := neighbors_nodup hnd n
      rw [hnb] at hnodup
      have hab : a ≠ b := by simpa using hnodup
      have hna : n ≠ a := by
        rintro rfl
        have : n ∈ G.neighbors n := by rw [hnb]; simp
        exact absurd (mem_neighbors.mp this).2 (by simp [hs])
      have hnb' : n ≠ b := by
        rintro rfl
        have : n ∈ G.neighbors n := by rw [hnb]; simp
        exact absurd (mem_neighbors.mp this).2 (by simp [hs])
      exact ⟨a, b, rfl, hab, hna, hnb', hs⟩

/-! ### Shape of one reduction step -/

lemma mem_combinations2 {l : List String} {p : String × String}
    (h : p ∈ combinations2 l) : p.1 ∈ l ∧ p.2 ∈ l := by
  induction l with
  | nil => simp [combinations2] at h
  | cons x xs ih =>
    simp only [combinations2, List.mem_append, List.mem_map] at h
    rcases h with ⟨y, hy, rfl⟩ | h
    · simp [hy]
    · have := ih h
      simp [this.1, this.2]

lemma foldl_addEdge_nodes {l : List (String × String)} {G : Graph}
    (h : ∀ p ∈ l, p.1 ∈ G.nodes ∧ p.2 ∈ G.nodes) :
    (l.foldl (fun g p => g.addEdge p.1 p.2) G).nodes = G.nodes := by
  induction l generalizing G with
  | nil => rfl
  | cons p rest ih =>
    have hp := h p (by simp)
    have hnodes : (G.addEdge p.1 p.2).nodes = G.nodes :=
      addEdge_nodes_of_mem hp.1 hp.2
    rw [List.foldl_cons, ih, hnodes]
    intro q hq
    rw [hnodes]
    exact h q (by simp [hq])

lemma hasEdge_foldl_addEdge_of {l : List (String × String)} {G : Graph}
    {x y : String} (h : G.hasEdge x y = true) :
    (l.foldl (fun g p => g.addEdge p.1 p.2) G).hasEdge x y = true := by
  induction l generalizing G with
  | nil => exact h
  | cons p rest ih =>
    rw [List.foldl_cons]
    exact ih (hasEdge_addEdge_of h)

lemma hasEdge_foldl_addEdge_elim {l : List (String × String)} {G : Graph}
    {x y : String}
    (h : (l.foldl (fun g p => g.addEdge p.1 p.2) G).hasEdge x y = true) :
    G.hasEdge x y = true ∨ ∃ p ∈ l, sameEdge p (x, y) = true := by
  induction l generalizing G with
  | nil => exact Or.inl h
  | cons p rest ih =>
    rw [List.foldl_cons] at h
    rcases ih h with h' | ⟨q, hq, hs⟩
    · rcases hasEdge_addEdge_elim h' with h'' | h''
      · exact Or.inl h''
      · exact Or.inr ⟨p, by simp, by simpa using h''⟩
    · exact Or.inr ⟨q, by simp [hq], hs⟩

lemma reduceStep_eq_none_iff {subs : List String} {G : Graph} :
    reduceStep subs G = none ↔
      G.nodes.find? (fun n => removal_condition subs n (G.degree n)) = none := by
  unfold reduceStep
  cases G.nodes.find? (fun n => removal_condition subs n (G.degree n)) <;> simp

lemma reduceStep_of_find {subs : List String} {G : Graph} {n : String}
    (hfind : G.nodes.find? (fun m => removal_condition subs m (G.degree m)) = some n) :
    reduceStep subs G =
      some (((combinations2 (G.neighbors n)).foldl
        (fun g p => g.addEdge p.1 p.2) G).removeNode n) := by
  unfold reduceStep
  rw [hfind]

lemma reduceStep_some_inv {subs : List String} {G G' : Graph}
    (h : reduceStep subs G = some G') :
    ∃ n, G.nodes.find? (fun m => removal_condition subs m (G.degree m)) = some n ∧
      G' = ((combinations2 (G.neighbors n)).foldl
        (fun g p => g.addEdge p.1 p.2) G).removeNode n := by
  unfold reduceStep at h
  cases hfind : G.nodes.find? (fun m => removal_condition subs m (G.degree m)) with
  | none => rw [hfind] at h; exact absurd h (by simp)
  | some n =>
    rw [hfind] at h
    exact ⟨n, rfl, (Option.some.inj h).symm⟩

lemma reduceStep_nodes {subs : List String} {G G' : Graph}
    (h : reduceStep subs G = some G') :
    ∃ n, G.nodes.find? (fun m => removal_condition subs m (G.degree m)) = some n ∧
      G'.nodes = G.nodes.erase n := by
  obtain ⟨n, hfind, rfl⟩ := reduceStep_some_inv h
  refine ⟨n, hfind, ?_⟩
  rw [removeNode_nodes, foldl_addEdge_nodes]
  intro p hp
  have hmem := mem_combinations2 hp
  exact ⟨(mem_neighbors.mp hmem.1).1, (mem_neighbors.mp hmem.2).1⟩

lemma reduceStep_length {subs : List String} {G G' : Graph}
    (h : reduceStep subs G = some G') :
    G'.nodes.length + 1 = G.nodes.length := by
  obtain ⟨n, hfind, hnodes⟩ := reduceStep_nodes h
  have hmem : n ∈ G.nodes := List.mem_of_find?_eq_some hfind
  have hpos : 0 < G.nodes.length := List.length_pos.mpr (by
    intro hnil
    rw [hnil] at hmem
    simp at hmem)
  rw [hnodes, List.length_erase_of_mem hmem]
  omega

/-! ### The loop: termination bound and fixpoint -/

lemma reduceLoop_of_none {subs : List String} {G : Graph}
    (h : reduceStep subs G = none) (fuel : Nat) : reduceLoop subs fuel G = G := by
  cases fuel with
  | zero => rfl
  | succ f => simp [reduceLoop, h]

lemma reduceLoop_fixpoint {subs : List String} {fuel : Nat} {G : Graph}
    (h : G.nodes.length ≤ fuel) :
    reduceStep subs (reduceLoop subs fuel G) = none := by
  induction fuel generalizing G with
  | zero =>
    have hnil : G.nodes = [] := List.length_eq_zero.mp (Nat.le_zero.mp h)
    rw [reduceLoop]
    rw [reduceStep_eq_none_iff, hnil]
    rfl
  | succ f ih =>
    rw [reduceLoop]
    cases hstep : reduceStep subs G with
    | none => exact hstep
    | some G' =>
      have hlen := reduceStep_length hstep
      exact ih (by omega)

lemma reduceLoop_append (subs : List String) (f1 f2 : Nat) (G : Graph) :
    reduceLoop subs (f1 + f2) G = reduceLoop subs f2 (reduceLoop subs f1 G) := by
  induction f1 generalizing G with
  | zero => rw [Nat.zero_add]; rfl
  | succ f ih =>
    have hshift : f + 1 + f2 = (f + f2) + 1 := by omega
    rw [hshift, reduceLoop, reduceLoop]
    cases hstep : reduceStep subs G with
    | none => exact (reduceLoop_of_none hstep f2).symm
    | some G' => exact ih G'

lemma reduceLoop_ge {subs : List String} {fuel : Nat} {G : Graph}
    (h : G.nodes.length ≤ fuel) :
    reduceLoop subs fuel G = reduce subs G := by
  obtain ⟨extra, hextra⟩ : ∃ extra, fuel = G.nodes.length + extra :=
    ⟨fuel - G.nodes.length, by omega⟩
  rw [hextra, reduceLoop_append]
  exact reduceLoop_of_none (reduceLoop_fixpoint (Nat.le_refl _)) extra

/-! ### Which nodes survive a step and the loop -/

lemma reduceStep_mem_of_ne {subs : List String} {G G' : Graph} {m : String}
    (h : reduceStep subs G = some G') (hm : m ∈ G.nodes)
    (hcond : removal_condition subs m (G.degree m) = false) : m ∈ G'.nodes := by
  obtain ⟨n, hfind, hnodes⟩ := reduceStep_nodes h
  have hn : removal_condition subs n (G.degree n) = true := by
    simpa using List.find?_some hfind
  have hne : m ≠ n := by rintro rfl; rw [hn] at hcond; exact absurd hcond (by simp)
  rw [hnodes]
  exact (List.mem_erase_of_ne hne).mpr hm

lemma reduceStep_removed_matched {subs : List String} {G G' : Graph} {m : String}
    (h : reduceStep subs G = some G') (hm : m ∈ G.nodes) (hm' : m ∉ G'.nodes) :
    removal_condition subs m (G.degree m) = true := by
  obtain ⟨n, hfind, hnodes⟩ := reduceStep_nodes h
  have heq : m = n := by
    by_contra hne
    exact hm' (hnodes ▸ (List.mem_erase_of_ne hne).mpr hm)
  have hn : removal_condition subs n (G.degree n) = true := by
    simpa using List.find?_some hfind
  exact heq ▸ hn

lemma reduceLoop_mem_of_no_label {subs : List String} {fuel : Nat} {G : Graph}
    {m : String} (hm : m ∈ G.nodes)
    (hlabel : subs.any (fun e => str_in e m) = false) :
    m ∈ (reduceLoop subs fuel G).nodes := by
  induction fuel generalizing G with
  | zero => exact hm
  | succ f ih =>
    rw [reduceLoop]
    cases hstep : reduceStep subs G with
    | none => exact hm
    | some G' =>
      refine ih (reduceStep_mem_of_ne hstep hm ?_)
      simp [removal_condition, hlabel]

/-! ### Well-formedness is preserved -/

lemma WF_addNode {G : Graph} (h : G.WF) (u : String) : (G.addNode u).WF := by
  obtain ⟨hnd, hep, hpw⟩ := h
  unfold Graph.addNode
  by_cases hu : u ∈ G.nodes
  · simp only [hu, if_true]
    exact ⟨hnd, hep, hpw⟩
  · simp only [hu, if_false]
    refine ⟨?_, ?_, hpw⟩
    · rw [List.nodup_append]
      refine ⟨hnd, List.nodup_singleton u, ?_⟩
      intro a ha hau
      simp only [List.mem_singleton] at hau
      exact hu (hau ▸ ha)
    · intro e he
      have := hep e he
      exact ⟨List.mem_append_left _ this.1, List.mem_append_left _ this.2⟩

lemma WF_addEdge {G : Graph} (h : G.WF) (u v : String) : (G.addEdge u v).WF := by
  have h1 : ((G.addNode u).addNode v).WF := WF_addNode (WF_addNode h u) v
  have hu : u ∈ ((G.addNode u).addNode v).nodes :=
    mem_addNode_nodes (self_mem_addNode_nodes G u)
  have hv : v ∈ ((G.addNode u).addNode v).nodes := self_mem_addNode_nodes _ v
  simp only [Graph.addEdge]
  by_cases hc : ((G.addNode u).addNode v).hasEdge u v = true
  · rw [if_pos hc]; exact h1
  · rw [if_neg hc]
    obtain ⟨hnd, hep, hpw⟩ := h1
    refine ⟨hnd, ?_, ?_⟩
    · intro e he
      rcases List.mem_append.mp he with he' | he'
      · exact hep e he'
      · simp only [List.mem_singleton] at he'
        subst he'
        exact ⟨hu, hv⟩
    · rw [List.pairwise_append]
      refine ⟨hpw, List.pairwise_singleton _ _, ?_⟩
      intro e he f hf
      simp only [List.mem_singleton] at hf
      subst hf
      have hall : ∀ e ∈ ((G.addNode u).addNode v).edges, sameEdge e (u, v) = false := by
        intro e' he'
        by_contra hcc
        exact hc (hasEdge_iff.mpr ⟨e', he', by simpa using hcc⟩)
      exact hall e he

lemma WF_removeNode {G : Graph} (h : G.WF) (n : String) : (G.removeNode n).WF := by
  obtain ⟨hnd, hep, hpw⟩ := h
  refine ⟨hnd.erase n, ?_, hpw.sublist (List.filter_sublist _)⟩
  intro e he
  simp only [Graph.removeNode, List.mem_filter, Bool.and_eq_true, Bool.not_eq_true',
    beq_eq_false_iff_ne] at he
  obtain ⟨hmem, h1, h2⟩ := he
  have := hep e hmem
  exact ⟨(List.mem_erase_of_ne h1).mpr this.1, (List.mem_erase_of_ne h2).mpr this.2⟩

lemma WF_foldl_addEdge {l : List (String × String)} {G : Graph} (h : G.WF) :
    (l.foldl (fun g p => g.addEdge p.1 p.2) G).WF := by
  induction l generalizing G with
  | nil => exact h
  | cons p rest ih =>
    rw [List.foldl_cons]
    exact ih (WF_addEdge h p.1 p.2)

lemma WF_reduceStep {subs : List String} {G G' : Graph} (h : G.WF)
    (hstep : reduceStep subs G = some G') : G'.WF := by
  obtain ⟨n, hfind, rfl⟩ := reduceStep_some_inv hstep
  exact WF_removeNode (WF_foldl_addEdge h) n

lemma WF_reduceLoop {subs : List String} {fuel : Nat} {G : Graph} (h : G.WF) :
    (reduceLoop subs fuel G).WF := by
  induction fuel generalizing G with
  | zero => exact h
  | succ f ih =>
    rw [reduceLoop]
    cases hstep : reduceStep subs G with
    | none => exact h
    | some G' => exact ih (WF_reduceStep h hstep)

/-! ### Edge counting in a well-formed graph -/

lemma pairwise_filter_length_le_one {l : List (String × String)} {u v : String}
    (hp : List.Pairwise (fun e f => sameEdge e f = false) l) :
    (l.filter (fun e => sameEdge e (u, v))).length ≤ 1 := by
  induction l with
  | nil => simp
  | cons e rest ih =>
    obtain ⟨he, hrest⟩ := List.pairwise_cons.mp hp
    rw [List.filter_cons]
    by_cases hs : sameEdge e (u, v) = true
    · simp only [hs, if_true]
      have hnil : rest.filter (fun f => sameEdge f (u, v)) = [] := by
        rw [List.filter_eq_nil_iff]
        intro f hf hc
        have h1 := he f hf
        rw [sameEdge_trans hs (by simpa using hc)] at h1
        exact absurd h1 (by simp)
      rw [hnil]
      simp
    · simp only [Bool.not_eq_true] at hs
      simp only [hs]
      simp only [Bool.false_eq_true, if_false]
      exact ih hrest

lemma WF_edgeCount_le_one {G : Graph} (h : G.WF) (u v : String) :
    G.edgeCount u v ≤ 1 :=
  pairwise_filter_length_le_one h.2.2

lemma edgeCount_pos_of_hasEdge {G : Graph} {u v : String}
    (h : G.hasEdge u v = true) : 0 < G.edgeCount u v := by
  obtain ⟨e, he, hs⟩ := hasEdge_iff.mp h
  exact List.length_pos.mpr (List.ne_nil_of_mem (List.mem_filter.mpr ⟨he, hs⟩))

lemma edgeCount_removeNode {G : Graph} {n a b : String} (ha : a ≠ n) (hb : b ≠ n) :
    (G.removeNode n).edgeCount a b = G.edgeCount a b := by
  unfold Graph.edgeCount Graph.removeNode
  simp only
  rw [List.filter_filter]
  refine congrArg List.length (List.filter_congr ?_)
  intro e he
  by_cases hs : sameEdge e (a, b) = true
  · rw [hs]
    simp only [Bool.true_and]
    rcases sameEdge_iff.mp hs with ⟨h1, h2⟩ | ⟨h1, h2⟩ <;> simp_all
  · simp only [Bool.not_eq_true] at hs
    rw [hs]
    simp

/-! ### Concrete shapes of a step, fixpoint of the loop -/

lemma removal_condition_iff {subs : List String} {node : String} {d : Nat} :
    removal_condition subs node d = true ↔
      d = 2 ∧ subs.any (fun e => str_in e node) = true := by
  simp [removal_condition]

lemma reduceStep_shape_self_loop {subs : List String} {G : Graph} {n : String}
    (hfind : G.nodes.find? (fun m => removal_condition subs m (G.degree m)) = some n)
    (hnb : G.neighbors n = [n]) :
    reduceStep subs G = some (G.removeNode n) := by
  rw [reduceStep_of_find hfind, hnb]
  rfl

lemma reduceStep_shape_two {subs : List String} {G : Graph} {n a b : String}
    (hfind : G.nodes.find? (fun m => removal_condition subs m (G.degree m)) = some n)
    (hnb : G.neighbors n = [a, b]) :
    reduceStep subs G = some ((G.addEdge a b).removeNode n) := by
  rw [reduceStep_of_find hfind, hnb]
  rfl

lemma reduce_step_none (subs : List String) (G : Graph) :
    reduceStep subs (reduce subs G) = none :=
  reduceLoop_fixpoint (Nat.le_refl _)

lemma reduce_idem (subs : List String) (G : Graph) :
    reduce subs (reduce subs G) = reduce subs G :=
  reduceLoop_of_none (reduce_step_none subs G) _

lemma reduce_no_matching_node {subs : List String} {G : Graph} {n : String}
    (hn : n ∈ (reduce subs G).nodes) :
    removal_condition subs n ((reduce subs G).degree n) = false := by
  have hnone := reduce_step_none subs G
  rw [reduceStep_eq_none_iff] at hnone
  have := List.find?_eq_none.mp hnone n hn
  simpa using this

/-! ### Self-loops are never created -/

lemma reduceStep_no_new_self_loop {subs : List String} {G G' : Graph} {v : String}
    (hwf : G.WF) (hstep : reduceStep subs G = some G')
    (hv : G'.hasEdge v v = true) : G.hasEdge v v = true := by
  obtain ⟨n, hfind, hG'⟩ := reduceStep_some_inv hstep
  have hcond : removal_condition subs n (G.degree n) = true := by
    simpa using List.find?_some hfind
  have hdeg : G.degree n = 2 := (removal_condition_iff.mp hcond).1
  have hmem : n ∈ G.nodes := List.mem_of_find?_eq_some hfind
  rcases degree_two_cases hwf.1 hmem hdeg with ⟨hs, hnb⟩ | ⟨a, b, hnb, hab, hna, hnb2, hsl⟩
  · have hshape := reduceStep_shape_self_loop hfind hnb
    rw [hstep] at hshape
    have hG : G' = G.removeNode n := Option.some.inj hshape
    rw [hG] at hv
    exact (hasEdge_removeNode_elim hv).1
  · have hshape := reduceStep_shape_two hfind hnb
    rw [hstep] at hshape
    have hG : G' = (G.addEdge a b).removeNode n := Option.some.inj hshape
    rw [hG] at hv
    have h1 := (hasEdge_removeNode_elim hv).1
    rcases hasEdge_addEdge_elim h1 with h2 | h2
    · exact h2
    · exfalso
      rcases sameEdge_iff.mp h2 with ⟨e1, e2⟩ | ⟨e1, e2⟩ <;>
        exact hab (by simp_all)

lemma reduceLoop_no_new_self_loop {subs : List String} {fuel : Nat} {G : Graph}
    {v : String} (hwf : G.WF)
    (hv : (reduceLoop subs fuel G).hasEdge v v = true) : G.hasEdge v v = true := by
  induction fuel generalizing G with
  | zero => exact hv
  | succ f ih =>
    rw [reduceLoop] at hv
    cases hstep : reduceStep subs G with
    | none => rw [hstep] at hv; exact hv
    | some G' =>
      rw [hstep] at hv
      exact reduceStep_no_new_self_loop hwf hstep (ih (WF_reduceStep hwf hstep) hv)

/-! ### Claims -/

/-- C1, counterexample: in the triangle `triG`, node `"wgN"` matches the
filter `["wg"]`, has degree exactly 2 with the two neighbors `"wgM"` and
`"A"`, yet after the reduction loop completes `"wgN"` is still present and no
edge joins `"wgM"` and `"A"` (the loop removed `"wgM"` first, which dropped
`"wgN"` to degree 1). -/
theorem C1_counterexample :
    removal_condition ["wg"] "wgN" (triG.degree "wgN") = true ∧
    triG.neighbors "wgN" = ["wgM", "A"] ∧
    "wgN" ∈ (reduce ["wg"] triG).nodes ∧
    (reduce ["wg"] triG).hasEdge "wgM" "A" = false :=
  ⟨by decide, by decide, by decide, by decide⟩

/-- C1 (amended): when a reduction iteration picks the node `n` and `n`'s
neighbors at that moment are exactly `a` and `b`, then in the iteration's
output `n` is absent and a single edge joins `a` and `b` (added if not
already present; simple-graph semantics leave exactly one stored edge). -/
theorem C1_rewiring_step (subs : List String) (G G' : Graph) (n a b : String)
    (hwf : G.WF)
    (hfind : G.nodes.find? (fun m => removal_condition subs m (G.degree m)) = some n)
    (hnb : G.neighbors n = [a, b])
    (hstep : reduceStep subs G = some G') :
    n ∉ G'.nodes ∧ G'.hasEdge a b = true ∧ G'.edgeCount a b = 1 := by
  have hcond : removal_condition subs n (G.degree n) = true := by
    simpa using List.find?_some hfind
  have hdeg : G.degree n = 2 := (removal_condition_iff.mp hcond).1
  have hmem : n ∈ G.nodes := List.mem_of_find?_eq_some hfind
  rcases degree_two_cases hwf.1 hmem hdeg with ⟨hs, hnb'⟩ |
    ⟨a', b', hnb', hab, hna, hnb2, hsl⟩
  · rw [hnb] at hnb'
    simp at hnb'
  · rw [hnb] at hnb'
    have heq : a = a' ∧ b = b' := by simpa using hnb'
    obtain ⟨rfl, rfl⟩ := heq
    have hshape := reduceStep_shape_two hfind hnb
    rw [hstep] at hshape
    have hG : G' = (G.addEdge a b).removeNode n := Option.some.inj hshape
    subst hG
    have haN : a ∈ G.neighbors n := by rw [hnb]; simp
    have hbN : b ∈ G.neighbors n := by rw [hnb]; simp
    have haG := (mem_neighbors.mp haN).1
    have hbG := (mem_neighbors.mp hbN).1
    refine ⟨?_, ?_, ?_⟩
    · rw [removeNode_nodes, addEdge_nodes_of_mem haG hbG]
      exact hwf.1.not_mem_erase
    · exact hasEdge_removeNode_of (Ne.symm hna) (Ne.symm hnb2)
        (hasEdge_addEdge_self G a b)
    · rw [edgeCount_removeNode (Ne.symm hna) (Ne.symm hnb2)]
      have hle := WF_edgeCount_le_one (WF_addEdge hwf a b) a b
      have hpos := edgeCount_pos_of_hasEdge (hasEdge_addEdge_self G a b)
      omega

/-- C1 (amended), witness: the step on the chain `A – wgX – B` removes `wgX`
and leaves the single edge `A – B`. -/
theorem C1_rewiring_step_witness :
    "wgX" ∉ reduced3.nodes ∧ reduced3.hasEdge "A" "B" = true ∧
    reduced3.edgeCount "A" "B" = 1 :=
  C1_rewiring_step ["wg"] chain3 reduced3 "wgX" "A" "B"
    (by decide) (by decide) (by decide) (by decide)

/-- C2: after the reduction loop no remaining node both has degree 2 and
matches the substrings (fixpoint of the rule), and applying the loop a second
time to its own output yields the same graph (idempotence). -/
theorem C2_reduction_fixpoint (subs : List String) (G : Graph) :
    (∀ n ∈ (reduce subs G).nodes,
      removal_condition subs n ((reduce subs G).degree n) = false) ∧
    reduce subs (reduce subs G) = reduce subs G :=
  ⟨fun _n hn => reduce_no_matching_node hn, reduce_idem subs G⟩

/-- C2, witness: instance of the fixpoint and idempotence on the triangle. -/
theorem C2_reduction_fixpoint_witness :
    removal_condition ["wg"] "A" ((reduce ["wg"] triG).degree "A") = false ∧
    reduce ["wg"] (reduce ["wg"] triG) = reduce ["wg"] triG :=
  ⟨(C2_reduction_fixpoint ["wg"] triG).1 "A" (by decide),
   (C2_reduction_fixpoint ["wg"] triG).2⟩

/-- C3: every iteration of the reduction loop removes exactly one node, so
the node count strictly decreases, and fuel equal to the initial node count
already reaches the loop's final graph: any larger iteration budget produces
the same result (the loop terminates within node-count iterations). -/
theorem C3_termination_bound (subs : List String) (G : Graph) :
    (∀ G', reduceStep subs G = some G' → G'.nodes.length + 1 = G.nodes.length) ∧
    (∀ fuel, G.nodes.length ≤ fuel → reduceLoop subs fuel G = reduce subs G) :=
  ⟨fun _G' h => reduceStep_length h, fun _fuel h => reduceLoop_ge h⟩

/-- C3, witness: one step on `A – wgX – B` removes exactly one node, and fuel
5 ≥ 3 gives the same result as fuel 3. -/
theorem C3_termination_bound_witness :
    reduced3.nodes.length + 1 = chain3.nodes.length ∧
    reduceLoop ["wg"] 5 chain3 = reduce ["wg"] chain3 :=
  ⟨(C3_termination_bound ["wg"] chain3).1 reduced3 (by decide),
   (C3_termination_bound ["wg"] chain3).2 5 (by decide)⟩

/-- C4: on the chain `A – waveguideX – waveguideY – B` with filter
`["waveguide"]`, the reduction loop yields exactly the 2-node graph with
nodes `A`, `B` and the single edge `A – B`. -/
theorem C4_chain_reduction :
    reduce ["waveguide"] chainG = ⟨["A", "B"], [("A", "B")]⟩ := by
  decide

/-- C5: a node whose label contains no substring of the filter survives the
whole reduction loop; and any node removed by an iteration satisfied the
removal condition — label match and degree exactly 2 — in the graph of that
very moment. -/
theorem C5_non_reduction_guarantee (subs : List String) (G : Graph) :
    (∀ m ∈ G.nodes, subs.any (fun e => str_in e m) = false →
      m ∈ (reduce subs G).nodes) ∧
    (∀ G' m, reduceStep subs G = some G' → m ∈ G.nodes → m ∉ G'.nodes →
      removal_condition subs m (G.degree m) = true) :=
  ⟨fun _m hm hl => reduceLoop_mem_of_no_label hm hl,
   fun _G' _m h hm hm' => reduceStep_removed_matched h hm hm'⟩

/-- C5, witness: `"A"` (no label match) survives reduction of the triangle,
and the node removed from `A – wgX – B` satisfied the condition. -/
theorem C5_non_reduction_guarantee_witness :
    "A" ∈ (reduce ["wg"] triG).nodes ∧
    removal_condition ["wg"] "wgX" (chain3.degree "wgX") = true :=
  ⟨(C5_non_reduction_guarantee ["wg"] triG).1 "A" (by decide) (by decide),
   (C5_non_reduction_guarantee ["wg"] chain3).2 reduced3 "wgX"
     (by decide) (by decide) (by decide)⟩

/-- C6: with `nodes_to_reduce` equal to `None` or an empty collection the
reduction phase is skipped entirely: the renderer receives exactly the
builder's graph and no error arises (the function is total). -/
theorem C6_empty_reduction_skipped :
    (∀ (G : Graph) (interactive pyvis_available : Bool),
      plot_nets G interactive none pyvis_available =
        render interactive pyvis_available G) ∧
    (∀ (G : Graph) (interactive pyvis_available : Bool) (subs : List String),
      subs.isEmpty = true →
      plot_nets G interactive (some subs) pyvis_available =
        render interactive pyvis_available G) := by
  refine ⟨fun G i p => rfl, fun G i p subs h => ?_⟩
  simp [plot_nets, graph_for_rendering, h]

/-- C6, witness: concrete instance at the triangle with the empty list. -/
theorem C6_empty_reduction_skipped_witness :
    plot_nets triG false none false = render false false triG ∧
    plot_nets triG false (some []) false = render false false triG :=
  ⟨C6_empty_reduction_skipped.1 triG false false,
   C6_empty_reduction_skipped.2 triG false false [] (by decide)⟩

/-- C7: with `interactive = True` and `pyvis` unavailable, `plot_nets` raises
exactly the one `UserWarning` chained from the import failure, whose message
names `pyvis` and contains a `pip install` hint; no other error type. -/
theorem C7_missing_dependency (G : Graph) (nodes_to_reduce : Option (List String)) :
    plot_nets G true nodes_to_reduce false = Except.error pyvis_missing_warning ∧
    pyvis_missing_warning.error_class = "UserWarning" ∧
    pyvis_missing_warning.chained_from_import_error = true ∧
    str_in "pyvis" pyvis_missing_warning.message = true ∧
    str_in "pip install" pyvis_missing_warning.message = true :=
  ⟨rfl, rfl, rfl, by decide, by decide⟩

/-- C8: an iteration of the reduction loop relates the previous snapshot to a
new graph value whose differences are confined to the copy the iteration
mutated: the chosen node is gone, every other node survives, edges not
incident to the chosen node are preserved, and every new edge joins two
pre-iteration neighbors of the chosen node — the pre-iteration graph value
determines the scan and is never itself changed. -/
theorem C8_iteration_frame (subs : List String) (G G' : Graph)
    (hwf : G.WF) (hstep : reduceStep subs G = some G') :
    ∃ n, G.nodes.find? (fun m => removal_condition subs m (G.degree m)) = some n ∧
      (∀ m, m ∈ G'.nodes ↔ m ∈ G.nodes ∧ m ≠ n) ∧
      (∀ u v, u ≠ n → v ≠ n → G.hasEdge u v = true → G'.hasEdge u v = true) ∧
      (∀ u v, G'.hasEdge u v = true →
        G.hasEdge u v = true ∨ (u ∈ G.neighbors n ∧ v ∈ G.neighbors n)) ∧
      (∀ u v, G'.hasEdge u v = true → u ≠ n ∧ v ≠ n) := by
  obtain ⟨n, hfind, hG⟩ := reduceStep_some_inv hstep
  obtain ⟨n', hfind', hnodes⟩ := reduceStep_nodes hstep
  rw [hfind] at hfind'
  obtain rfl : n = n' := Option.some.inj hfind'
  subst hG
  refine ⟨n, hfind, ?_, ?_, ?_, ?_⟩
  · intro m
    rw [hnodes, hwf.1.mem_erase_iff]
    exact and_comm
  · intro u v hu hv h
    exact hasEdge_removeNode_of hu hv (hasEdge_foldl_addEdge_of h)
  · intro u v h
    have h1 := (hasEdge_removeNode_elim h).1
    rcases hasEdge_foldl_addEdge_elim h1 with h2 | ⟨p, hp, hsame⟩
    · exact Or.inl h2
    · right
      have hmemp := mem_combinations2 hp
      rcases sameEdge_iff.mp hsame with ⟨e1, e2⟩ | ⟨e1, e2⟩
      · have h1 : p.1 = u := e1
        have h2 : p.2 = v := e2
        exact ⟨h1 ▸ hmemp.1, h2 ▸ hmemp.2⟩
      · have h1 : p.1 = v := e1
        have h2 : p.2 = u := e2
        exact ⟨h2 ▸ hmemp.2, h1 ▸ hmemp.1⟩
  · intro u v h
    exact ⟨(hasEdge_removeNode_elim h).2.1, (hasEdge_removeNode_elim h).2.2⟩

/-- C8, witness: the frame property instantiated on `A – wgX – B`. -/
theorem C8_iteration_frame_witness :
    ∃ n, chain3.nodes.find?
        (fun m => removal_condition ["wg"] m (chain3.degree m)) = some n ∧
      (∀ m, m ∈ reduced3.nodes ↔ m ∈ chain3.nodes ∧ m ≠ n) ∧
      (∀ u v, u ≠ n → v ≠ n → chain3.hasEdge u v = true →
        reduced3.hasEdge u v = true) ∧
      (∀ u v, reduced3.hasEdge u v = true →
        chain3.hasEdge u v = true ∨
          (u ∈ chain3.neighbors n ∧ v ∈ chain3.neighbors n)) ∧
      (∀ u v, reduced3.hasEdge u v = true → u ≠ n ∧ v ≠ n) :=
  C8_iteration_frame ["wg"] chain3 reduced3 (by decide) (by decide)

/-- C9: with `interactive = True` and `pyvis` available, the output is the
HTML file with the fixed name `connectivity.html`, select and filter menus
enabled, for every value of `nodes_to_reduce` and every builder graph — no
parameter of `plot_nets` can change the filename. -/
theorem C9_interactive_html_filename (G : Graph)
    (nodes_to_reduce : Option (List String)) :
    plot_nets G true nodes_to_reduce true =
      Except.ok (RenderOutcome.html_file "connectivity.html" true true
        (graph_for_rendering G nodes_to_reduce)) := rfl

/-- C10: the reduction never introduces a self-loop: any self-loop present
after one step — or after the whole loop — was already present before it. -/
theorem C10_no_new_self_loops (subs : List String) (G : Graph) (hwf : G.WF) :
    (∀ G' v, reduceStep subs G = some G' → G'.hasEdge v v = true →
      G.hasEdge v v = true) ∧
    (∀ v, (reduce subs G).hasEdge v v = true → G.hasEdge v v = true) :=
  ⟨fun _G' _v h hv => reduceStep_no_new_self_loop hwf h hv,
   fun _v hv => reduceLoop_no_new_self_loop hwf hv⟩

/-- C10, witness: the self-loop on `L` surviving the reduction of `loopG` was
present in `loopG` already. -/
theorem C10_no_new_self_loops_witness :
    loopG.hasEdge "L" "L" = true ∧ loopG.hasEdge "L" "L" = true :=
  ⟨(C10_no_new_self_loops ["wg"] loopG (by decide)).1 loopG' "L"
      (by decide) (by decide),
   (C10_no_new_self_loops ["wg"] loopG (by decide)).2 "L" (by decide)⟩
